import Mathlib

/-!
Shallow embedding of the decentralized virtual-memory manager
(`memorymanager.py`): a fixed list of storage nodes, each holding a
capacity-bounded, insertion-ordered table of page records; deterministic
hash-mod placement of allocations; cross-node linear-scan lookup with
access accounting; and a standalone XOR byte cipher over the UTF-8
encoding of a text.

Python state is modelled functionally: each mutating method returns the
updated object together with its Python return value.  The pandas
DataFrame `Node.memory` becomes a `List PageRecord` (rows in insertion
order, row index = list position).  Python's built-in string `hash` is
an unspecified but fixed function, modelled as a parameter
`h : String → Nat`.
-/

/-- One row of a node's `memory` DataFrame: columns
`page_id`, `data`, `access_count`. -/
structure PageRecord where
  page_id : String
  data : String
  access_count : Nat
deriving DecidableEq, Repr

/-- A storage node (`class Node`): identifier, record table, capacity
(`memory_size`). -/
structure Node where
  node_id : Nat
  memory : List PageRecord
  memory_size : Nat
deriving DecidableEq, Repr

/-- `Node.allocate_page`: if `len(self.memory) < self.memory_size`, append
a row `[page_id, data, 0]` at the end and return `True`; otherwise return
`False` (memory full) leaving the node unchanged. -/
def Node.allocate_page (n : Node) (pid pdata : String) : Node × Bool :=
  if n.memory.length < n.memory_size then
    ({ n with memory := n.memory ++ [⟨pid, pdata, 0⟩] }, true)
  else
    (n, false)

/-- `Node.access_page`: filter the rows whose `page_id` equals the query
(`self.memory[self.memory['page_id'] == page_id]`).  If the filtered frame
is nonempty, increment `access_count` at every matching row index
(`self.memory.loc[page.index, 'access_count'] += 1`) and return the first
matching row's `data` (`page.iloc[0]['data']`); otherwise return `None`
(page fault). -/
def Node.access_page (n : Node) (pid : String) : Node × Option String :=
  let page := n.memory.filter (fun r => r.page_id == pid)
  match page with
  | [] => (n, none)
  | r :: _ =>
    ({ n with memory :=
        n.memory.map (fun s =>
          if s.page_id == pid then { s with access_count := s.access_count + 1 } else s) },
     some r.data)

/-- Cluster-level allocation (the page-distribution loop):
`node_idx = hash(page_id) % len(nodes)` followed by
`nodes[node_idx].allocate_page(page_id, data)` on that one node only.
`h` models Python's fixed string hash. -/
def clusterAllocate (h : String → Nat) (ns : List Node) (pid pdata : String) :
    List Node × Bool :=
  let i := h pid % ns.length
  if hi : i < ns.length then
    let p := ns[i].allocate_page pid pdata
    (ns.set i p.1, p.2)
  else
    (ns, false)

/-- Cluster-level lookup (`MemoryManagerGUI.access_page`): iterate the
nodes in index order, call `access_page` on each, and stop at the first
node returning a hit; report a page fault when every node misses. -/
def clusterAccess (ns : List Node) (pid : String) : List Node × Option String :=
  match ns with
  | [] => ([], none)
  | n :: rest =>
    let p := n.access_page pid
    match p.2 with
    | some d => (p.1 :: rest, some d)
    | none =>
      let q := clusterAccess rest pid
      (p.1 :: q.1, q.2)

/-- An operation issued against the cluster: an allocation (one pass of
the distribution loop) or an operator lookup. -/
inductive Op where
  | alloc (pid pdata : String)
  | lookup (pid : String)
deriving DecidableEq, Repr

/-- Run a sequence of cluster operations, threading the node-list state. -/
def runOps (h : String → Nat) (ns : List Node) : List Op → List Node
  | [] => ns
  | Op.alloc pid pdata :: ops => runOps h (clusterAllocate h ns pid pdata).1 ops
  | Op.lookup pid :: ops => runOps h (clusterAccess ns pid).1 ops

/-- The data payloads of the records of `n` whose `page_id` is `pid`, in
row order. -/
def Node.pidDatas (n : Node) (pid : String) : List String :=
  (n.memory.filter (fun r => r.page_id == pid)).map PageRecord.data

/-- Concatenation, in node-index order, of each node's `pid`-record data
payloads. -/
def clusterDatas (ns : List Node) (pid : String) : List String :=
  match ns with
  | [] => []
  | n :: rest => n.pidDatas pid ++ clusterDatas rest pid

/-- The page ids stored in a node, in row order. -/
def Node.pageIds (n : Node) : List String :=
  n.memory.map PageRecord.page_id

/-- All page ids stored in the cluster, nodes in index order, rows in
insertion order. -/
def clusterIds (ns : List Node) : List String :=
  match ns with
  | [] => []
  | n :: rest => n.pageIds ++ clusterIds rest

/-- Ids of the allocation operations of a sequence, in order. -/
def allocIds : List Op → List String
  | [] => []
  | Op.alloc pid _ :: ops => pid :: allocIds ops
  | Op.lookup _ :: ops => allocIds ops

/-- Data payloads of the allocations for `pid` that succeed when `ops`
runs from state `ns`, in order. -/
def succDatas (h : String → Nat) (ns : List Node) (pid : String) : List Op → List String
  | [] => []
  | Op.alloc q d :: ops =>
    let p := clusterAllocate h ns q d
    if q = pid ∧ p.2 = true then d :: succDatas h p.1 pid ops
    else succDatas h p.1 pid ops
  | Op.lookup q :: ops => succDatas h (clusterAccess ns q).1 pid ops

/-- All records for `pid` live at node index `i` (every other node holds
none). -/
def onlyAt (ns : List Node) (i : Nat) (pid : String) : Prop :=
  ∀ j (hj : j < ns.length), j ≠ i → (ns[j]).pidDatas pid = []

/-- Every record of a node sits at the index its id routes to. -/
def routedInv (h : String → Nat) (ns : List Node) : Prop :=
  ∀ j (hj : j < ns.length), ∀ r ∈ (ns[j]).memory, j = h r.page_id % ns.length

/-- UTF-8 encoding of one code point (Python's `str.encode()` uses
UTF-8); each byte written arithmetically. -/
def utf8EncodeCp (c : Nat) : List Nat :=
  if c < 0x80 then [c]
  else if c < 0x800 then [0xC0 + c / 0x40, 0x80 + c % 0x40]
  else if c < 0x10000 then
    [0xE0 + c / 0x1000, 0x80 + c / 0x40 % 0x40, 0x80 + c % 0x40]
  else
    [0xF0 + c / 0x40000, 0x80 + c / 0x1000 % 0x40, 0x80 + c / 0x40 % 0x40,
      0x80 + c % 0x40]

/-- UTF-8 encoding of a text (`data.encode()`), the text taken as its
sequence of characters. -/
def strEncode : List Char → List Nat
  | [] => []
  | c :: cs => utf8EncodeCp c.toNat ++ strEncode cs

/-- UTF-8 decoding of a byte sequence to code points, the recursion
bounded by a fuel counting decoded code points (each code point consumes
at least one byte, so a fuel of the byte count is always enough);
`none` on a malformed sequence. -/
def utf8DecodeFuel : Nat → List Nat → Option (List Nat)
  | _, [] => some []
  | 0, _ :: _ => none
  | fuel + 1, b0 :: bs =>
    if b0 < 0x80 then (utf8DecodeFuel fuel bs).map (fun cs => b0 :: cs)
    else if b0 < 0xC0 then none
    else if b0 < 0xE0 then
      match bs with
      | b1 :: bs1 =>
        if 0x80 ≤ b1 ∧ b1 < 0xC0 then
          (utf8DecodeFuel fuel bs1).map
            (fun cs => ((b0 - 0xC0) * 0x40 + (b1 - 0x80)) :: cs)
        else none
      | [] => none
    else if b0 < 0xF0 then
      match bs with
      | b1 :: b2 :: bs2 =>
        if (0x80 ≤ b1 ∧ b1 < 0xC0) ∧ (0x80 ≤ b2 ∧ b2 < 0xC0) then
          (utf8DecodeFuel fuel bs2).map
            (fun cs => ((b0 - 0xE0) * 0x1000 + (b1 - 0x80) * 0x40 + (b2 - 0x80)) :: cs)
        else none
      | _ => none
    else if b0 < 0xF8 then
      match bs with
      | b1 :: b2 :: b3 :: bs3 =>
        if (0x80 ≤ b1 ∧ b1 < 0xC0) ∧ (0x80 ≤ b2 ∧ b2 < 0xC0) ∧
            (0x80 ≤ b3 ∧ b3 < 0xC0) then
          (utf8DecodeFuel fuel bs3).map
            (fun cs =>
              ((b0 - 0xF0) * 0x40000 + (b1 - 0x80) * 0x1000 + (b2 - 0x80) * 0x40 +
                (b3 - 0x80)) :: cs)
        else none
      | _ => none
    else none

/-- UTF-8 decoding of a byte sequence to code points (the decoding half
of `bytes.decode()`). -/
def utf8DecodeCps (bs : List Nat) : Option (List Nat) :=
  utf8DecodeFuel bs.length bs

/-- UTF-8 decoding of a byte sequence back to a text
(`bytes.decode()`). -/
def strDecode (bs : List Nat) : Option (List Char) :=
  (utf8DecodeCps bs).map (fun cs => cs.map Char.ofNat)

/-- `encrypt(data, key)`: XOR every byte of the UTF-8 encoding with the
key, stored as numpy `uint8` (hence the mod-256 cast). -/
def encrypt (t : List Char) (key : Nat) : List Nat :=
  (strEncode t).map (fun b => (b ^^^ key) % 256)

/-- `decrypt(encrypted_data, key)`: XOR every byte with the key again and
decode the result as UTF-8 text. -/
def decrypt (bs : List Nat) (key : Nat) : Option (List Char) :=
  strDecode (bs.map (fun b => b ^^^ key))

/-- Mapping a function that fixes every element of a list is the
identity on that list. -/
theorem map_eq_self_of_fix {α : Type} (l : List α) (f : α → α)
    (hf : ∀ a ∈ l, f a = a) : l.map f = l := by
  induction l with
  | nil => rfl
  | cons a t ih =>
    simp only [List.map_cons, hf a (by simp), List.cons.injEq, true_and]
    exact ih (fun b hb => hf b (by simp [hb]))

/-- The record table produced by `access_page` is the input table with
`access_count` bumped at exactly the matching rows. -/
theorem access_page_memory_eq (n : Node) (pid : String) :
    (n.access_page pid).1.memory
      = n.memory.map (fun s =>
          if s.page_id == pid then { s with access_count := s.access_count + 1 } else s) := by
  simp only [Node.access_page]
  cases hp : n.memory.filter (fun r => r.page_id == pid) with
  | nil =>
    simp only [hp]
    refine (map_eq_self_of_fix _ _ (fun a ha => ?_)).symm
    rw [List.filter_eq_nil_iff] at hp
    simp [hp a ha]
  | cons r t => simp [hp]

/-- `access_page` leaves `node_id` and `memory_size` unchanged. -/
theorem access_page_fields_eq (n : Node) (pid : String) :
    (n.access_page pid).1.node_id = n.node_id ∧
      (n.access_page pid).1.memory_size = n.memory_size := by
  simp only [Node.access_page]
  cases hp : n.memory.filter (fun r => r.page_id == pid) with
  | nil => simp [hp]
  | cons r t => simp [hp]

/-- The value returned by `access_page` is the data of the first matching
row when one exists. -/
theorem access_page_snd_eq (n : Node) (pid : String) :
    (n.access_page pid).2 = (n.pidDatas pid).head? := by
  simp only [Node.access_page, Node.pidDatas]
  cases hp : n.memory.filter (fun r => r.page_id == pid) with
  | nil => simp [hp]
  | cons r t => simp [hp]

/-- Bumping access counts (for any queried id `q`) preserves the
projection of a record list to the data payloads filtered by any id. -/
theorem filter_data_map_bump (l : List PageRecord) (q pid : String) :
    ((l.map (fun s =>
        if s.page_id == q then { s with access_count := s.access_count + 1 } else s)).filter
          (fun r => r.page_id == pid)).map PageRecord.data
      = (l.filter (fun r => r.page_id == pid)).map PageRecord.data := by
  induction l with
  | nil => rfl
  | cons a t ih =>
    have hfa : (if a.page_id == q then { a with access_count := a.access_count + 1 }
        else a).page_id = a.page_id := by
      by_cases h : a.page_id == q <;> simp [h]
    have hda : (if a.page_id == q then { a with access_count := a.access_count + 1 }
        else a).data = a.data := by
      by_cases h : a.page_id == q <;> simp [h]
    simp only [List.map_cons, List.filter_cons, hfa]
    by_cases h2 : a.page_id == pid
    · rw [if_pos h2, if_pos h2, List.map_cons, List.map_cons, hda, ih]
    · rw [if_neg h2, if_neg h2, ih]

/-- Bumping access counts preserves the projection of a record list to
its page ids. -/
theorem map_page_id_map_bump (l : List PageRecord) (q : String) :
    (l.map (fun s =>
        if s.page_id == q then { s with access_count := s.access_count + 1 } else s)).map
          PageRecord.page_id
      = l.map PageRecord.page_id := by
  induction l with
  | nil => rfl
  | cons a t ih =>
    have hfa : (if a.page_id == q then { a with access_count := a.access_count + 1 }
        else a).page_id = a.page_id := by
      by_cases h : a.page_id == q <;> simp [h]
    simp only [List.map_cons, hfa, ih]

/-- C5: if the node is strictly below capacity, `allocate_page(id, data)`
appends exactly one record `(id, data, 0)` at the end and returns true;
at capacity it returns false with the node completely unchanged. -/
theorem allocate_page_spec (n : Node) (pid pdata : String) :
    (n.memory.length < n.memory_size →
      n.allocate_page pid pdata
        = ({ n with memory := n.memory ++ [⟨pid, pdata, 0⟩] }, true)) ∧
    (¬ n.memory.length < n.memory_size →
      n.allocate_page pid pdata = (n, false)) := by
  constructor <;> intro h <;> simp [Node.allocate_page, h]

/-- Witness for C5 at concrete nodes: one allocation below capacity, one
at capacity. -/
theorem allocate_page_spec_witness :
    (Node.mk 0 [] 3).allocate_page "p" "a" = (Node.mk 0 [⟨"p", "a", 0⟩] 3, true) ∧
      (Node.mk 1 [⟨"q", "b", 2⟩] 1).allocate_page "p" "a"
        = (Node.mk 1 [⟨"q", "b", 2⟩] 1, false) :=
  ⟨(allocate_page_spec (Node.mk 0 [] 3) "p" "a").1 (by decide),
   (allocate_page_spec (Node.mk 1 [⟨"q", "b", 2⟩] 1) "p" "a").2 (by decide)⟩

/-- C8 as stated is false on the code: with two records carrying the same
id `"p"`, `access_page "p"` increments the access counts of both records,
not only the first match, so a non-first matching record's counter does
change. -/
theorem access_page_first_only_counterexample :
    ((Node.mk 0 [⟨"p", "a", 0⟩, ⟨"p", "b", 0⟩] 3).access_page "p").1
        = Node.mk 0 [⟨"p", "a", 1⟩, ⟨"p", "b", 1⟩] 3 ∧
      Node.mk 0 [⟨"p", "a", 1⟩, ⟨"p", "b", 1⟩] 3
        ≠ Node.mk 0 [⟨"p", "a", 1⟩, ⟨"p", "b", 0⟩] 3 := by decide

/-- C8 amended: on a hit, `access_page(id)` increments the access count of
every record whose `page_id` equals the queried id by exactly 1 (hence of
the first match in particular), leaves all other records unchanged, and
returns the first matching record's data; on a miss it returns not-found
and leaves the node completely unchanged. -/
theorem access_page_spec (n : Node) (pid : String) :
    (n.access_page pid).1.memory
        = n.memory.map (fun s =>
            if s.page_id == pid then { s with access_count := s.access_count + 1 } else s) ∧
      (n.access_page pid).2
        = ((n.memory.filter (fun r => r.page_id == pid)).map PageRecord.data).head? ∧
      ((n.access_page pid).2 = none → (n.access_page pid).1 = n) := by
  refine ⟨access_page_memory_eq n pid, access_page_snd_eq n pid, fun hmiss => ?_⟩
  have hsnd := access_page_snd_eq n pid
  rw [hmiss] at hsnd
  have hnil : n.memory.filter (fun r => r.page_id == pid) = [] := by
    cases hp : n.memory.filter (fun r => r.page_id == pid) with
    | nil => rfl
    | cons r t => rw [Node.pidDatas, hp] at hsnd; simp at hsnd
  simp [Node.access_page, hnil]

/-- Witness for C8 amended: a miss on a concrete node leaves it
unchanged. -/
theorem access_page_spec_witness :
    ((Node.mk 0 [⟨"p", "a", 0⟩] 2).access_page "q").1 = Node.mk 0 [⟨"p", "a", 0⟩] 2 :=
  (access_page_spec (Node.mk 0 [⟨"p", "a", 0⟩] 2) "q").2.2 (by decide)

/-- C10: `access_page` never changes the number of records and never
changes any record's `page_id` or `data`; the access count of a record
whose `page_id` differs from the queried id is never changed. -/
theorem access_page_frame (n : Node) (pid : String) :
    (n.access_page pid).1.memory.length = n.memory.length ∧
      ∀ i (hi : i < n.memory.length) (hi2 : i < (n.access_page pid).1.memory.length),
        ((n.access_page pid).1.memory[i]).page_id = (n.memory[i]).page_id ∧
          ((n.access_page pid).1.memory[i]).data = (n.memory[i]).data ∧
          ((n.memory[i]).page_id ≠ pid →
            ((n.access_page pid).1.memory[i]).access_count = (n.memory[i]).access_count) := by
  have hm := access_page_memory_eq n pid
  refine ⟨by rw [hm]; simp, ?_⟩
  intro i hi hi2
  simp only [hm, List.getElem_map]
  by_cases h : (n.memory[i]).page_id = pid
  · simp [h]
  · simp [h]

/-- Witness for C10 at a concrete node and index: the non-matching
record's counter keeps its value 5. -/
theorem access_page_frame_witness :
    (((Node.mk 0 [⟨"p", "a", 0⟩, ⟨"q", "b", 5⟩] 3).access_page "p").1.memory.get ⟨1, by decide⟩).access_count
      = ((Node.mk 0 [⟨"p", "a", 0⟩, ⟨"q", "b", 5⟩] 3).memory.get ⟨1, by decide⟩).access_count :=
  ((access_page_frame (Node.mk 0 [⟨"p", "a", 0⟩, ⟨"q", "b", 5⟩] 3) "p").2 1 (by decide)
    (by decide)).2.2 (by decide)

/-- `allocate_page` leaves `node_id` and `memory_size` unchanged. -/
theorem allocate_page_fields_eq (n : Node) (pid pdata : String) :
    (n.allocate_page pid pdata).1.node_id = n.node_id ∧
      (n.allocate_page pid pdata).1.memory_size = n.memory_size := by
  unfold Node.allocate_page
  split <;> simp

/-- `allocate_page` preserves the capacity bound. -/
theorem allocate_page_nodeOk (n : Node) (pid pdata : String)
    (hok : n.memory.length ≤ n.memory_size) :
    (n.allocate_page pid pdata).1.memory.length ≤ (n.allocate_page pid pdata).1.memory_size := by
  unfold Node.allocate_page
  split <;> simp <;> omega

/-- `access_page` preserves the number of records. -/
theorem access_page_length_eq (n : Node) (pid : String) :
    (n.access_page pid).1.memory.length = n.memory.length := by
  rw [access_page_memory_eq]; simp

/-- `access_page` preserves the capacity bound. -/
theorem access_page_nodeOk (n : Node) (pid : String)
    (hok : n.memory.length ≤ n.memory_size) :
    (n.access_page pid).1.memory.length ≤ (n.access_page pid).1.memory_size := by
  rw [access_page_length_eq, (access_page_fields_eq n pid).2]
  exact hok

/-- Each node of the state after a cluster allocation is either an old
node or the allocation image of an old node. -/
theorem mem_clusterAllocate_fst (h : String → Nat) (ns : List Node) (pid pdata : String) :
    ∀ m ∈ (clusterAllocate h ns pid pdata).1,
      m ∈ ns ∨ ∃ n ∈ ns, m = (n.allocate_page pid pdata).1 := by
  intro m hm
  simp only [clusterAllocate] at hm
  split at hm
  · rcases List.mem_or_eq_of_mem_set hm with hold | hnew
    · exact Or.inl hold
    · exact Or.inr ⟨_, by simp, hnew⟩
  · exact Or.inl hm

/-- Each node of the state after a cluster lookup is either an old node
or the lookup image of an old node. -/
theorem mem_clusterAccess_fst (ns : List Node) (pid : String) :
    ∀ m ∈ (clusterAccess ns pid).1,
      m ∈ ns ∨ ∃ n ∈ ns, m = (n.access_page pid).1 := by
  induction ns with
  | nil => simp [clusterAccess]
  | cons n rest ih =>
    intro m hm
    simp only [clusterAccess] at hm
    cases hp : (n.access_page pid).2 with
    | some d =>
      rw [hp] at hm
      rcases List.mem_cons.mp hm with hh | ht
      · exact Or.inr ⟨n, by simp, hh⟩
      · exact Or.inl (by simp [ht])
    | none =>
      rw [hp] at hm
      rcases List.mem_cons.mp hm with hh | ht
      · exact Or.inr ⟨n, by simp, hh⟩
      · rcases ih m ht with hold | ⟨n2, hn2, he⟩
        · exact Or.inl (by simp [hold])
        · exact Or.inr ⟨n2, by simp [hn2], he⟩

/-- C1: the capacity bound `len(records) ≤ capacity` holds for every node
after every sequence of cluster allocations and lookups, whenever it
holds initially (in particular from the empty initial tables); so no
node's record count ever exceeds its configured capacity. -/
theorem capacity_invariant (h : String → Nat) (ns : List Node) (ops : List Op)
    (hok : ∀ n ∈ ns, n.memory.length ≤ n.memory_size) :
    ∀ n ∈ runOps h ns ops, n.memory.length ≤ n.memory_size := by
  induction ops generalizing ns with
  | nil => exact hok
  | cons op rest ih =>
    cases op with
    | alloc pid pdata =>
      refine ih _ (fun m hm => ?_)
      rcases mem_clusterAllocate_fst h ns pid pdata m hm with hold | ⟨n, hn, he⟩
      · exact hok m hold
      · exact he ▸ allocate_page_nodeOk n pid pdata (hok n hn)
    | lookup pid =>
      refine ih _ (fun m hm => ?_)
      rcases mem_clusterAccess_fst ns pid m hm with hold | ⟨n, hn, he⟩
      · exact hok m hold
      · exact he ▸ access_page_nodeOk n pid (hok n hn)

/-- Witness for C1: three empty nodes of capacity 3 run a demo-like
sequence; the busiest resulting node (two records, one counter bumped by
the lookup) is within its capacity. -/
theorem capacity_invariant_witness :
    (Node.mk 1 [⟨"p", "a", 1⟩, ⟨"x", "d", 0⟩] 3).memory.length
      ≤ (Node.mk 1 [⟨"p", "a", 1⟩, ⟨"x", "d", 0⟩] 3).memory_size :=
  capacity_invariant (fun s => s.length)
    [Node.mk 0 [] 3, Node.mk 1 [] 3, Node.mk 2 [] 3]
    [Op.alloc "p" "a", Op.alloc "pq" "b", Op.alloc "pqr" "c", Op.lookup "p",
      Op.alloc "x" "d"]
    (by decide) (Node.mk 1 [⟨"p", "a", 1⟩, ⟨"x", "d", 0⟩] 3) (by decide)

/-- Writing back the element already at a position leaves a list
unchanged. -/
theorem set_getElem_eq_self {α : Type} (l : List α) (i : Nat) (hi : i < l.length) :
    l.set i l[i] = l := by
  apply List.ext_getElem
  · simp
  · intro j h1 h2
    by_cases hj : j = i
    · subst hj; simp
    · rw [List.getElem_set_ne (Ne.symm hj)]

/-- C6: cluster allocation attempts exactly one node, the routed target
`hash(id) mod N`: the node list keeps its length, every node other than
the routed index is unchanged whether the allocation succeeds or fails,
and when the routed target is full the allocation returns false with the
entire node list unchanged (no spillover to any other node). -/
theorem cluster_allocate_frame (h : String → Nat) (ns : List Node) (pid pdata : String) :
    (clusterAllocate h ns pid pdata).1.length = ns.length ∧
      (∀ j (hj : j < ns.length) (hj2 : j < (clusterAllocate h ns pid pdata).1.length),
        j ≠ h pid % ns.length → (clusterAllocate h ns pid pdata).1[j] = ns[j]) ∧
      (∀ hi : h pid % ns.length < ns.length,
        ¬ (ns[h pid % ns.length]).memory.length < (ns[h pid % ns.length]).memory_size →
          clusterAllocate h ns pid pdata = (ns, false)) := by
  refine ⟨?_, ?_, ?_⟩
  · simp only [clusterAllocate]
    split <;> simp
  · intro j hj hj2 hne
    simp only [clusterAllocate] at hj2 ⊢
    split at hj2 <;> split
    · exact List.getElem_set_ne (Ne.symm hne) hj2
    · simp_all
    · simp_all
    · rfl
  · intro hi hfull
    have hp : (ns[h pid % ns.length]).allocate_page pid pdata
        = (ns[h pid % ns.length], false) := by
      unfold Node.allocate_page
      rw [if_neg hfull]
    simp only [clusterAllocate]
    rw [dif_pos hi, hp]
    simp [set_getElem_eq_self ns _ hi]

/-- The result of a cluster lookup is the head of the concatenated data
payloads for the queried id, nodes scanned in index order. -/
theorem clusterAccess_snd_eq (ns : List Node) (pid : String) :
    (clusterAccess ns pid).2 = (clusterDatas ns pid).head? := by
  induction ns with
  | nil => rfl
  | cons n rest ih =>
    have hs := access_page_snd_eq n pid
    simp only [clusterAccess, clusterDatas]
    cases hp : (n.access_page pid).2 with
    | some d =>
      rw [hp] at hs
      cases hd : n.pidDatas pid with
      | nil => rw [hd] at hs; simp at hs
      | cons x xs =>
        rw [hd] at hs
        simp only [List.head?_cons, Option.some.injEq] at hs
        subst hs
        simp [hd, Node.pidDatas] at *
    | none =>
      rw [hp] at hs
      cases hd : n.pidDatas pid with
      | nil =>
        have : n.pidDatas pid = [] := hd
        simp only [Node.pidDatas] at this
        simp [this, ih]
      | cons x xs => rw [hd] at hs; simp at hs

/-- A cluster lookup reports a page fault exactly when every node's
`access_page` misses. -/
theorem clusterAccess_none_iff (ns : List Node) (pid : String) :
    (clusterAccess ns pid).2 = none ↔ ∀ n ∈ ns, (n.access_page pid).2 = none := by
  induction ns with
  | nil => simp [clusterAccess]
  | cons n rest ih =>
    simp only [clusterAccess]
    cases hp : (n.access_page pid).2 with
    | some d => simp [List.forall_mem_cons, hp]
    | none => simp [List.forall_mem_cons, hp, ih]

/-- Cluster allocation preserves the number of nodes. -/
theorem length_clusterAllocate (h : String → Nat) (ns : List Node) (pid pdata : String) :
    (clusterAllocate h ns pid pdata).1.length = ns.length := by
  simp only [clusterAllocate]
  split <;> simp

/-- Cluster lookup preserves the number of nodes. -/
theorem length_clusterAccess (ns : List Node) (pid : String) :
    (clusterAccess ns pid).1.length = ns.length := by
  induction ns with
  | nil => rfl
  | cons n rest ih =>
    simp only [clusterAccess]
    cases hp : (n.access_page pid).2 <;> simp [ih]

/-- Shape of a cluster lookup when the first node hits. -/
theorem clusterAccess_cons_hit (n : Node) (rest : List Node) (q d : String)
    (hp : (n.access_page q).2 = some d) :
    clusterAccess (n :: rest) q = ((n.access_page q).1 :: rest, some d) := by
  simp only [clusterAccess]
  rw [hp]

/-- Shape of a cluster lookup when the first node misses. -/
theorem clusterAccess_cons_miss (n : Node) (rest : List Node) (q : String)
    (hp : (n.access_page q).2 = none) :
    clusterAccess (n :: rest) q
      = ((n.access_page q).1 :: (clusterAccess rest q).1, (clusterAccess rest q).2) := by
  simp only [clusterAccess]
  rw [hp]

/-- After a cluster lookup, the node at each index is either unchanged or
the `access_page` image of the node previously there. -/
theorem getElem_clusterAccess (ns : List Node) (q : String) :
    ∀ j (hj2 : j < (clusterAccess ns q).1.length) (hj : j < ns.length),
      (clusterAccess ns q).1[j] = ns[j] ∨
        (clusterAccess ns q).1[j] = ((ns[j]).access_page q).1 := by
  induction ns with
  | nil => intro j hj2 hj; simp at hj
  | cons n rest ih =>
    intro j hj2 hj
    cases hp : (n.access_page q).2 with
    | some d =>
      cases j with
      | zero => right; simp [clusterAccess_cons_hit n rest q d hp]
      | succ j2 => left; simp [clusterAccess_cons_hit n rest q d hp]
    | none =>
      cases j with
      | zero => right; simp [clusterAccess_cons_miss n rest q hp]
      | succ j2 =>
        have hr := ih j2 (by rw [length_clusterAccess]; simpa using hj) (by simpa using hj)
        simpa [clusterAccess_cons_miss n rest q hp] using hr

/-- `access_page` (for any queried id) preserves the data projection of
the records matching any id. -/
theorem pidDatas_access_page (n : Node) (q pid : String) :
    (n.access_page q).1.pidDatas pid = n.pidDatas pid := by
  simp only [Node.pidDatas, access_page_memory_eq]
  exact filter_data_map_bump n.memory q pid

/-- `access_page` preserves the page-id projection of the records. -/
theorem pageIds_access_page (n : Node) (q : String) :
    (n.access_page q).1.pageIds = n.pageIds := by
  simp only [Node.pageIds, access_page_memory_eq]
  exact map_page_id_map_bump n.memory q

/-- Allocating an id different from `pid` never changes a node's
`pid`-record data projection. -/
theorem pidDatas_allocate_page_ne (n : Node) (q d pid : String) (hne : q ≠ pid) :
    (n.allocate_page q d).1.pidDatas pid = n.pidDatas pid := by
  unfold Node.allocate_page
  split <;> simp [Node.pidDatas, List.filter_append, hne]

/-- Allocating `pid` itself appends its data to the node's `pid`-record
data projection exactly when the allocation succeeds. -/
theorem pidDatas_allocate_page_self (n : Node) (pid d : String) :
    (n.allocate_page pid d).1.pidDatas pid
      = n.pidDatas pid
        ++ (if (n.allocate_page pid d).2 = true then [d] else []) := by
  unfold Node.allocate_page
  split <;> simp [Node.pidDatas, List.filter_append]

/-- The page ids of a node after `allocate_page`: the allocated id is
appended exactly when the allocation succeeds. -/
theorem pageIds_allocate_page (n : Node) (q d : String) :
    (n.allocate_page q d).1.pageIds
      = n.pageIds ++ (if (n.allocate_page q d).2 = true then [q] else []) := by
  unfold Node.allocate_page
  split <;> simp [Node.pageIds]


/-- A cluster all of whose nodes hold no `pid`-record has empty
concatenated `pid`-data. -/
theorem clusterDatas_eq_nil (pid : String) :
    ∀ ns : List Node, (∀ j (hj : j < ns.length), (ns[j]).pidDatas pid = []) →
      clusterDatas ns pid = [] := by
  intro ns
  induction ns with
  | nil => intro _; rfl
  | cons n rest ih =>
    intro hall
    have h0 : n.pidDatas pid = [] := by simpa using hall 0 (by simp)
    rw [clusterDatas, h0, List.nil_append]
    exact ih (fun j hj => by simpa using hall (j + 1) (by simpa using hj))

/-- A cluster whose nodes all hold `pid` only at one index has its
concatenated `pid`-data equal to that node's, and setting a node with an
extended `pid`-projection extends the concatenation at the end. -/
theorem clusterDatas_set_append (ns : List Node) (pid : String) (extra : List String) :
    ∀ (i : Nat) (hi : i < ns.length) (m : Node),
      m.pidDatas pid = (ns[i]).pidDatas pid ++ extra →
      (∀ j (hj : j < ns.length), j ≠ i → (ns[j]).pidDatas pid = []) →
      clusterDatas (ns.set i m) pid = clusterDatas ns pid ++ extra := by
  induction ns with
  | nil => intro i hi; simp at hi
  | cons n rest ih =>
    intro i hi m hm honly
    cases i with
    | zero =>
      have hr : clusterDatas rest pid = [] := by
        refine clusterDatas_eq_nil pid rest (fun j hj => ?_)
        have := honly (j + 1) (by simpa using hj) (by omega)
        simpa using this
      simp only [List.set_cons_zero, clusterDatas]
      rw [hm, hr]
      simp
    | succ i2 =>
      simp only [List.set_cons_succ, clusterDatas]
      rw [ih i2 (by simpa using hi) m (by simpa using hm) ?_, List.append_assoc]
      intro j hj hne
      have := honly (j + 1) (by simpa using hj) (by omega)
      simpa using this

/-- Setting a node whose `pid`-projection is unchanged preserves the
concatenated `pid`-data. -/
theorem clusterDatas_set_eq (ns : List Node) (pid : String) :
    ∀ (i : Nat) (hi : i < ns.length) (m : Node),
      m.pidDatas pid = (ns[i]).pidDatas pid →
      clusterDatas (ns.set i m) pid = clusterDatas ns pid := by
  induction ns with
  | nil => intro i hi; simp at hi
  | cons n rest ih =>
    intro i hi m hm
    cases i with
    | zero =>
      simp only [List.set_cons_zero, clusterDatas]
      rw [hm]
      simp
    | succ i2 =>
      simp only [List.set_cons_succ, clusterDatas]
      rw [ih i2 (by simpa using hi) m (by simpa using hm)]

/-- Cluster lookup preserves the concatenated `pid`-data. -/
theorem clusterDatas_clusterAccess (ns : List Node) (q pid : String) :
    clusterDatas (clusterAccess ns q).1 pid = clusterDatas ns pid := by
  induction ns with
  | nil => rfl
  | cons n rest ih =>
    cases hp : (n.access_page q).2 with
    | some d =>
      rw [clusterAccess_cons_hit n rest q d hp]
      simp [clusterDatas, pidDatas_access_page]
    | none =>
      rw [clusterAccess_cons_miss n rest q hp]
      simp [clusterDatas, pidDatas_access_page, ih]

/-- Effect of one cluster allocation on the concatenated `pid`-data: the
payload is appended exactly when the allocation is for `pid` and
succeeds. -/
theorem clusterDatas_clusterAllocate (h : String → Nat) (ns : List Node) (q d pid : String)
    (honly : onlyAt ns (h pid % ns.length) pid) :
    clusterDatas (clusterAllocate h ns q d).1 pid
      = clusterDatas ns pid
        ++ (if q = pid ∧ (clusterAllocate h ns q d).2 = true then [d] else []) := by
  by_cases hq : h q % ns.length < ns.length
  · have hca : clusterAllocate h ns q d
        = (ns.set (h q % ns.length) ((ns[h q % ns.length]).allocate_page q d).1,
            ((ns[h q % ns.length]).allocate_page q d).2) := by
      simp only [clusterAllocate]
      rw [dif_pos hq]
    rw [hca]
    by_cases hqp : q = pid
    · subst hqp
      rw [clusterDatas_set_append ns q
            (if ((ns[h q % ns.length]).allocate_page q d).2 = true then [d] else [])
            (h q % ns.length) hq _ (pidDatas_allocate_page_self _ q d) honly]
      by_cases hs : ((ns[h q % ns.length]).allocate_page q d).2 = true <;> simp [hs]
    · rw [clusterDatas_set_eq ns pid (h q % ns.length) hq _
            (pidDatas_allocate_page_ne _ q d pid hqp)]
      simp [hqp]
  · have hca : clusterAllocate h ns q d = (ns, false) := by
      simp only [clusterAllocate]
      rw [dif_neg hq]
    rw [hca]
    simp

/-- One cluster allocation keeps all `pid`-records at the routed index of
`pid`. -/
theorem onlyAt_clusterAllocate (h : String → Nat) (ns : List Node) (q d pid : String)
    (honly : onlyAt ns (h pid % ns.length) pid) :
    onlyAt (clusterAllocate h ns q d).1
      (h pid % (clusterAllocate h ns q d).1.length) pid := by
  intro j hj hne
  rw [length_clusterAllocate] at hne
  have hj0 : j < ns.length := by rw [length_clusterAllocate] at hj; exact hj
  by_cases hq : h q % ns.length < ns.length
  · have hca : (clusterAllocate h ns q d).1
        = ns.set (h q % ns.length) ((ns[h q % ns.length]).allocate_page q d).1 := by
      simp only [clusterAllocate]
      rw [dif_pos hq]
    have hel := List.getElem_of_eq hca hj
    rw [hel]
    by_cases hji : j = h q % ns.length
    · rw [List.getElem_set, if_pos hji.symm]
      by_cases hqp : q = pid
      · exact absurd (hji.trans (by rw [hqp])) hne
      · rw [pidDatas_allocate_page_ne _ q d pid hqp]
        exact honly (h q % ns.length) hq (by omega)
    · rw [List.getElem_set, if_neg (Ne.symm hji)]
      exact honly j hj0 hne
  · have hca : (clusterAllocate h ns q d).1 = ns := by
      simp only [clusterAllocate]
      rw [dif_neg hq]
    have hel := List.getElem_of_eq hca hj
    rw [hel]
    exact honly j hj0 hne

/-- A cluster lookup keeps all `pid`-records at the routed index of
`pid`. -/
theorem onlyAt_clusterAccess (ns : List Node) (q pid : String) (i : Nat)
    (honly : onlyAt ns i pid) :
    onlyAt (clusterAccess ns q).1 i pid := by
  intro j hj hne
  have hj0 : j < ns.length := by rw [length_clusterAccess] at hj; exact hj
  rcases getElem_clusterAccess ns q j hj hj0 with he | he
  · rw [he]
    exact honly j hj0 hne
  · rw [he, pidDatas_access_page]
    exact honly j hj0 hne

/-- Running any operation sequence appends the successful `pid`-payloads,
in order, to the cluster's concatenated `pid`-data. -/
theorem clusterDatas_runOps (h : String → Nat) (pid : String) :
    ∀ (ops : List Op) (ns : List Node),
      onlyAt ns (h pid % ns.length) pid →
      clusterDatas (runOps h ns ops) pid
        = clusterDatas ns pid ++ succDatas h ns pid ops := by
  intro ops
  induction ops with
  | nil => intro ns _; simp [runOps, succDatas]
  | cons op rest ih =>
    intro ns honly
    cases op with
    | alloc q d =>
      simp only [runOps, succDatas]
      rw [ih _ (onlyAt_clusterAllocate h ns q d pid honly),
        clusterDatas_clusterAllocate h ns q d pid honly]
      by_cases hc : q = pid ∧ (clusterAllocate h ns q d).2 = true
      · obtain ⟨hq, hs⟩ := hc
        subst hq
        rw [if_pos ⟨rfl, hs⟩, if_pos ⟨rfl, hs⟩]
        simp
      · rw [if_neg hc, if_neg hc]
        simp
    | lookup q =>
      simp only [runOps, succDatas]
      have honly2 : onlyAt (clusterAccess ns q).1
          (h pid % (clusterAccess ns q).1.length) pid := by
        rw [length_clusterAccess]
        exact onlyAt_clusterAccess ns q pid _ honly
      rw [ih _ honly2, clusterDatas_clusterAccess]

/-- A cluster of initially empty nodes holds `pid` nowhere. -/
theorem onlyAt_of_empty (ns : List Node) (i : Nat) (pid : String)
    (hinit : ∀ n ∈ ns, n.memory = []) : onlyAt ns i pid := by
  intro j hj _
  have hmem : ns[j] ∈ ns := List.getElem_mem hj
  simp [Node.pidDatas, hinit _ hmem]

/-- A cluster of initially empty nodes has empty concatenated data. -/
theorem clusterDatas_of_empty (ns : List Node) (pid : String)
    (hinit : ∀ n ∈ ns, n.memory = []) : clusterDatas ns pid = [] := by
  induction ns with
  | nil => rfl
  | cons n rest ih =>
    have h0 : n.pidDatas pid = [] := by simp [Node.pidDatas, hinit n (by simp)]
    rw [clusterDatas, h0, List.nil_append]
    exact ih (fun m hm => hinit m (by simp [hm]))

/-- C7: cluster lookup scans the nodes in stable index order calling
`access_page` on each until one hits: it returns the data of the first
matching record of the first matching node (the head of the node-ordered
concatenation of matching payloads), and reports a page fault exactly
when every node's `access_page` returns no match. -/
theorem cluster_lookup_scan (ns : List Node) (pid : String) :
    (clusterAccess ns pid).2 = (clusterDatas ns pid).head? ∧
      ((clusterAccess ns pid).2 = none ↔ ∀ n ∈ ns, (n.access_page pid).2 = none) :=
  ⟨clusterAccess_snd_eq ns pid, clusterAccess_none_iff ns pid⟩

/-- C2 as stated is false on the code: two allocations for id `"p"` both
succeed (data `"a"`, then data `"b"`), so the allocation that most
recently succeeded stored `"b"`, yet the cluster lookup returns `"a"`,
the data of the first successful allocation. -/
theorem cluster_lookup_latest_counterexample :
    (clusterAllocate (fun _ => 0) [Node.mk 0 [] 3] "p" "a").2 = true ∧
      (clusterAllocate (fun _ => 0)
          (clusterAllocate (fun _ => 0) [Node.mk 0 [] 3] "p" "a").1 "p" "b").2 = true ∧
      (clusterAccess
          (clusterAllocate (fun _ => 0)
            (clusterAllocate (fun _ => 0) [Node.mk 0 [] 3] "p" "a").1 "p" "b").1 "p").2
        = some "a" ∧
      (some "a" : Option String) ≠ some "b" := by decide

/-- C2 amended: starting from an initially empty cluster, `access(id)`
returns the data passed to the allocation call that FIRST succeeded for
that `id` (the head of the ordered successful payloads), and the
not-found (page fault) outcome exactly when no allocation for that id
ever succeeded. -/
theorem cluster_lookup_first_success (h : String → Nat) (ns : List Node) (ops : List Op)
    (pid : String) (hinit : ∀ n ∈ ns, n.memory = []) :
    (clusterAccess (runOps h ns ops) pid).2 = (succDatas h ns pid ops).head? := by
  rw [clusterAccess_snd_eq,
    clusterDatas_runOps h pid ops ns (onlyAt_of_empty ns _ pid hinit),
    clusterDatas_of_empty ns pid hinit, List.nil_append]

/-- Witness for C2 amended: a concrete run in which the second allocation
for "p" also succeeds; the lookup returns the first successful payload. -/
theorem cluster_lookup_first_success_witness :
    (clusterAccess
        (runOps (fun _ => 0) [Node.mk 0 [] 3]
          [Op.alloc "p" "a", Op.alloc "p" "b", Op.lookup "p"]) "p").2
      = (succDatas (fun _ => 0) [Node.mk 0 [] 3] "p"
          [Op.alloc "p" "a", Op.alloc "p" "b", Op.lookup "p"]).head? :=
  cluster_lookup_first_success (fun _ => 0) [Node.mk 0 [] 3]
    [Op.alloc "p" "a", Op.alloc "p" "b", Op.lookup "p"] "p" (by decide)

/-- Cluster lookup preserves the stored page ids. -/
theorem clusterIds_clusterAccess (ns : List Node) (q : String) :
    clusterIds (clusterAccess ns q).1 = clusterIds ns := by
  induction ns with
  | nil => rfl
  | cons n rest ih =>
    cases hp : (n.access_page q).2 with
    | some d =>
      rw [clusterAccess_cons_hit n rest q d hp]
      simp [clusterIds, pageIds_access_page]
    | none =>
      rw [clusterAccess_cons_miss n rest q hp]
      simp [clusterIds, pageIds_access_page, ih]

/-- Setting a node whose page ids gain a suffix `extra` permutes the
cluster's id list into the old ids followed by `extra`. -/
theorem clusterIds_set_perm (ns : List Node) (extra : List String) :
    ∀ (i : Nat) (hi : i < ns.length) (m : Node),
      m.pageIds = (ns[i]).pageIds ++ extra →
      (clusterIds (ns.set i m)).Perm (clusterIds ns ++ extra) := by
  induction ns with
  | nil => intro i hi; simp at hi
  | cons n rest ih =>
    intro i hi m hm
    cases i with
    | zero =>
      have hm0 : m.pageIds = n.pageIds ++ extra := by simpa using hm
      rw [List.set_cons_zero, clusterIds, clusterIds, hm0, List.append_assoc,
        List.append_assoc]
      exact List.Perm.append_left _ List.perm_append_comm
    | succ i2 =>
      rw [List.set_cons_succ, clusterIds, clusterIds, List.append_assoc]
      exact List.Perm.append_left _ (ih i2 (by simpa using hi) m (by simpa using hm))

/-- One cluster allocation permutes the cluster's id list into the old
ids, with the allocated id appended exactly when it succeeds. -/
theorem clusterIds_clusterAllocate_perm (h : String → Nat) (ns : List Node) (q d : String) :
    (clusterIds (clusterAllocate h ns q d).1).Perm
      (clusterIds ns ++ (if (clusterAllocate h ns q d).2 = true then [q] else [])) := by
  by_cases hq : h q % ns.length < ns.length
  · have hca : clusterAllocate h ns q d
        = (ns.set (h q % ns.length) ((ns[h q % ns.length]).allocate_page q d).1,
            ((ns[h q % ns.length]).allocate_page q d).2) := by
      simp only [clusterAllocate]
      rw [dif_pos hq]
    rw [hca]
    exact clusterIds_set_perm ns _ (h q % ns.length) hq _ (pageIds_allocate_page _ q d)
  · have hca : clusterAllocate h ns q d = (ns, false) := by
      simp only [clusterAllocate]
      rw [dif_neg hq]
    rw [hca]
    simp

/-- Running operations whose allocation ids are fresh and pairwise
distinct keeps the cluster's id list duplicate-free. -/
theorem nodup_clusterIds_runOps (h : String → Nat) :
    ∀ (ops : List Op) (ns : List Node),
      (clusterIds ns).Nodup → (allocIds ops).Nodup →
      (∀ x ∈ allocIds ops, x ∉ clusterIds ns) →
      (clusterIds (runOps h ns ops)).Nodup := by
  intro ops
  induction ops with
  | nil => intro ns h1 _ _; exact h1
  | cons op rest ih =>
    intro ns h1 h2 h3
    cases op with
    | lookup q =>
      simp only [runOps]
      refine ih _ ?_ (by simpa [allocIds] using h2) ?_
      · rw [clusterIds_clusterAccess]
        exact h1
      · intro x hx
        rw [clusterIds_clusterAccess]
        exact h3 x (by simpa [allocIds] using hx)
    | alloc q d =>
      simp only [runOps]
      have hperm := clusterIds_clusterAllocate_perm h ns q d
      have hq1 : q ∉ clusterIds ns := h3 q (by simp [allocIds])
      have h2c : q ∉ allocIds rest ∧ (allocIds rest).Nodup := by
        have : (q :: allocIds rest).Nodup := by simpa [allocIds] using h2
        exact List.nodup_cons.mp this
      refine ih _ ?_ h2c.2 ?_
      · rw [List.Perm.nodup_iff hperm]
        by_cases hs : (clusterAllocate h ns q d).2 = true
        · rw [if_pos hs, List.nodup_append]
          refine ⟨h1, by simp, ?_⟩
          intro a ha hb
          simp only [List.mem_singleton] at hb
          exact hq1 (hb ▸ ha)
        · rw [if_neg hs]
          simpa using h1
      · intro x hx hmem
        rw [List.Perm.mem_iff hperm] at hmem
        rcases List.mem_append.mp hmem with hin | hin
        · exact h3 x (by simp [allocIds, hx]) hin
        · by_cases hs : (clusterAllocate h ns q d).2 = true
          · rw [if_pos hs] at hin
            have hxq : x = q := by simpa using hin
            exact h2c.1 (hxq ▸ hx)
          · rw [if_neg hs] at hin
            simp at hin

/-- A cluster of initially empty nodes stores no ids. -/
theorem clusterIds_of_empty (ns : List Node)
    (hinit : ∀ n ∈ ns, n.memory = []) : clusterIds ns = [] := by
  induction ns with
  | nil => rfl
  | cons n rest ih =>
    have h0 : n.pageIds = [] := by simp [Node.pageIds, hinit n (by simp)]
    rw [clusterIds, h0, List.nil_append]
    exact ih (fun m hm => hinit m (by simp [hm]))

/-- C3 as stated is false on the code: a second cluster-level allocation
of the already-allocated id `"p"` succeeds and creates a second record
with that id in the routed node, so the stored ids are `["p", "p"]`, not
duplicate-free. -/
theorem unique_id_counterexample :
    (clusterAllocate (fun _ => 0)
        (clusterAllocate (fun _ => 0) [Node.mk 0 [] 3] "p" "a").1 "p" "b").2 = true ∧
      clusterIds (clusterAllocate (fun _ => 0)
        (clusterAllocate (fun _ => 0) [Node.mk 0 [] 3] "p" "a").1 "p" "b").1 = ["p", "p"] ∧
      ¬ (["p", "p"] : List String).Nodup := by decide

/-- C3 amended: starting from an initially empty cluster, page ids are
globally unique across the cluster provided the cluster-level allocation
sequence never repeats an id; a repeated allocation of an
already-allocated id to the (non-full) routed node does create a second
record with that id. -/
theorem unique_ids_of_distinct_allocs (h : String → Nat) (ns : List Node) (ops : List Op)
    (hinit : ∀ n ∈ ns, n.memory = []) (hdist : (allocIds ops).Nodup) :
    (clusterIds (runOps h ns ops)).Nodup := by
  have hempty : clusterIds ns = [] := clusterIds_of_empty ns hinit
  refine nodup_clusterIds_runOps h ops ns ?_ hdist ?_
  · rw [hempty]
    exact List.nodup_nil
  · intro x hx
    rw [hempty]
    simp

/-- Witness for C3 amended: a concrete distinct-id run whose final id
list is duplicate-free. -/
theorem unique_ids_of_distinct_allocs_witness :
    (clusterIds (runOps (fun s => s.length) [Node.mk 0 [] 2, Node.mk 1 [] 2]
        [Op.alloc "p" "a", Op.alloc "pq" "b", Op.lookup "p", Op.alloc "x" "c"])).Nodup :=
  unique_ids_of_distinct_allocs (fun s => s.length)
    [Node.mk 0 [] 2, Node.mk 1 [] 2]
    [Op.alloc "p" "a", Op.alloc "pq" "b", Op.lookup "p", Op.alloc "x" "c"]
    (by decide) (by decide)


/-- A record present after `allocate_page` was present before or carries
the allocated id. -/
theorem mem_allocate_page_memory (n : Node) (q d : String) (r : PageRecord)
    (hr : r ∈ (n.allocate_page q d).1.memory) : r ∈ n.memory ∨ r.page_id = q := by
  unfold Node.allocate_page at hr
  split at hr
  · simp only [List.mem_append, List.mem_singleton] at hr
    rcases hr with hold | hnew
    · exact Or.inl hold
    · right
      rw [hnew]
  · exact Or.inl hr

/-- A record present after `access_page` shares its id with a record
present before. -/
theorem mem_access_page_memory (n : Node) (q : String) (r : PageRecord)
    (hr : r ∈ (n.access_page q).1.memory) : ∃ r0 ∈ n.memory, r.page_id = r0.page_id := by
  rw [access_page_memory_eq] at hr
  rcases List.mem_map.mp hr with ⟨r0, hr0, he⟩
  refine ⟨r0, hr0, ?_⟩
  rw [← he]
  by_cases hc : r0.page_id == q <;> simp [hc]

/-- One cluster allocation preserves the routing invariant. -/
theorem routedInv_clusterAllocate (h : String → Nat) (ns : List Node) (q d : String)
    (hinv : routedInv h ns) : routedInv h (clusterAllocate h ns q d).1 := by
  intro j hj r hr
  have hj0 : j < ns.length := by rw [length_clusterAllocate] at hj; exact hj
  rw [length_clusterAllocate]
  by_cases hq : h q % ns.length < ns.length
  · have hca : (clusterAllocate h ns q d).1
        = ns.set (h q % ns.length) ((ns[h q % ns.length]).allocate_page q d).1 := by
      simp only [clusterAllocate]
      rw [dif_pos hq]
    have hel := List.getElem_of_eq hca hj
    rw [hel] at hr
    by_cases hji : j = h q % ns.length
    · rw [List.getElem_set, if_pos hji.symm] at hr
      rcases mem_allocate_page_memory _ q d r hr with hold | hid
      · have := hinv (h q % ns.length) hq r hold
        rw [hji]
        exact this
      · rw [hid]
        exact hji
    · rw [List.getElem_set, if_neg (Ne.symm hji)] at hr
      exact hinv j hj0 r hr
  · have hca : (clusterAllocate h ns q d).1 = ns := by
      simp only [clusterAllocate]
      rw [dif_neg hq]
    have hel := List.getElem_of_eq hca hj
    rw [hel] at hr
    exact hinv j hj0 r hr

/-- One cluster lookup preserves the routing invariant. -/
theorem routedInv_clusterAccess (h : String → Nat) (ns : List Node) (q : String)
    (hinv : routedInv h ns) : routedInv h (clusterAccess ns q).1 := by
  intro j hj r hr
  have hj0 : j < ns.length := by rw [length_clusterAccess] at hj; exact hj
  rw [length_clusterAccess]
  rcases getElem_clusterAccess ns q j hj hj0 with he | he
  · rw [he] at hr
    exact hinv j hj0 r hr
  · rw [he] at hr
    rcases mem_access_page_memory _ q r hr with ⟨r0, hr0, hid⟩
    rw [hid]
    exact hinv j hj0 r0 hr0

/-- Any operation sequence preserves the routing invariant. -/
theorem routedInv_runOps (h : String → Nat) (ops : List Op) :
    ∀ ns, routedInv h ns → routedInv h (runOps h ns ops) := by
  induction ops with
  | nil => intro ns hinv; exact hinv
  | cons op rest ih =>
    intro ns hinv
    cases op with
    | alloc q d => exact ih _ (routedInv_clusterAllocate h ns q d hinv)
    | lookup q => exact ih _ (routedInv_clusterAccess h ns q hinv)

/-- An initially empty cluster satisfies the routing invariant. -/
theorem routedInv_of_empty (h : String → Nat) (ns : List Node)
    (hinit : ∀ n ∈ ns, n.memory = []) : routedInv h ns := by
  intro j hj r hr
  rw [hinit _ (List.getElem_mem hj)] at hr
  simp at hr

/-- C4: with placement the fixed deterministic function
`hash(id) mod N`, every allocation attempt for a given id targets the
same single node, so after any operation sequence from an initially
empty cluster no identifier appears in two distinct nodes' records
simultaneously. -/
theorem id_in_one_node (h : String → Nat) (ns : List Node) (ops : List Op)
    (hinit : ∀ n ∈ ns, n.memory = []) :
    ∀ i j (hi : i < (runOps h ns ops).length) (hj : j < (runOps h ns ops).length),
      i ≠ j → ∀ pid,
        (∃ r ∈ ((runOps h ns ops)[i]).memory, r.page_id = pid) →
        ¬ ∃ r ∈ ((runOps h ns ops)[j]).memory, r.page_id = pid := by
  intro i j hi hj hne pid hex hex2
  obtain ⟨r, hr, hrid⟩ := hex
  obtain ⟨s, hs, hsid⟩ := hex2
  have hinv := routedInv_runOps h ops ns (routedInv_of_empty h ns hinit)
  have h1 := hinv i hi r hr
  have h2 := hinv j hj s hs
  rw [hrid] at h1
  rw [hsid] at h2
  exact hne (h1.trans h2.symm)

/-- Witness for C4: after a concrete two-allocation run, the id "p"
(stored in node 1) is absent from node 0. -/
theorem id_in_one_node_witness :
    ¬ ∃ r ∈ ((runOps (fun s => s.length) [Node.mk 0 [] 3, Node.mk 1 [] 3]
        [Op.alloc "p" "a", Op.alloc "pq" "b"]).get ⟨0, by decide⟩).memory,
      r.page_id = "p" :=
  id_in_one_node (fun s => s.length) [Node.mk 0 [] 3, Node.mk 1 [] 3]
    [Op.alloc "p" "a", Op.alloc "pq" "b"] (by decide)
    1 0 (by decide) (by decide) (by decide) "p" (by decide)


/-- Every code point of a character is below 0x110000. -/
theorem char_toNat_lt (c : Char) : c.toNat < 0x110000 := by
  have he : c.toNat = c.val.toNat := rfl
  rcases c.valid with hv | hv
  · omega
  · omega

/-- UTF-8 bytes of a valid code point are single bytes. -/
theorem utf8EncodeCp_lt_256 (c : Nat) (hc : c < 0x110000) :
    ∀ b ∈ utf8EncodeCp c, b < 256 := by
  intro b hb
  unfold utf8EncodeCp at hb
  split at hb
  · simp only [List.mem_singleton] at hb
    omega
  · split at hb
    · simp only [List.mem_cons, List.not_mem_nil, or_false] at hb
      omega
    · split at hb
      · simp only [List.mem_cons, List.not_mem_nil, or_false] at hb
        omega
      · simp only [List.mem_cons, List.not_mem_nil, or_false] at hb
        omega

/-- All bytes of an encoded text are single bytes. -/
theorem strEncode_lt_256 (t : List Char) : ∀ b ∈ strEncode t, b < 256 := by
  induction t with
  | nil => simp [strEncode]
  | cons c cs ih =>
    intro b hb
    simp only [strEncode, List.mem_append] at hb
    rcases hb with hb | hb
    · exact utf8EncodeCp_lt_256 c.toNat (char_toNat_lt c) b hb
    · exact ih b hb

/-- One-step unfolding of the decoder on a nonempty byte sequence with
fuel left. -/
theorem utf8DecodeFuel_succ_cons (fuel b0 : Nat) (bs : List Nat) :
    utf8DecodeFuel (fuel + 1) (b0 :: bs)
      = if b0 < 0x80 then (utf8DecodeFuel fuel bs).map (fun cs => b0 :: cs)
        else if b0 < 0xC0 then none
        else if b0 < 0xE0 then
          match bs with
          | b1 :: bs1 =>
            if 0x80 ≤ b1 ∧ b1 < 0xC0 then
              (utf8DecodeFuel fuel bs1).map
                (fun cs => ((b0 - 0xC0) * 0x40 + (b1 - 0x80)) :: cs)
            else none
          | [] => none
        else if b0 < 0xF0 then
          match bs with
          | b1 :: b2 :: bs2 =>
            if (0x80 ≤ b1 ∧ b1 < 0xC0) ∧ (0x80 ≤ b2 ∧ b2 < 0xC0) then
              (utf8DecodeFuel fuel bs2).map
                (fun cs => ((b0 - 0xE0) * 0x1000 + (b1 - 0x80) * 0x40 + (b2 - 0x80)) :: cs)
            else none
          | _ => none
        else if b0 < 0xF8 then
          match bs with
          | b1 :: b2 :: b3 :: bs3 =>
            if (0x80 ≤ b1 ∧ b1 < 0xC0) ∧ (0x80 ≤ b2 ∧ b2 < 0xC0) ∧
                (0x80 ≤ b3 ∧ b3 < 0xC0) then
              (utf8DecodeFuel fuel bs3).map
                (fun cs =>
                  ((b0 - 0xF0) * 0x40000 + (b1 - 0x80) * 0x1000 + (b2 - 0x80) * 0x40 +
                    (b3 - 0x80)) :: cs)
            else none
          | _ => none
        else none := rfl

/-- The decoder accepts an empty byte sequence at any fuel. -/
theorem utf8DecodeFuel_nil (fuel : Nat) : utf8DecodeFuel fuel [] = some [] := by
  cases fuel <;> rfl

/-- Decoding the encoding of one valid code point peels it off, consuming
one unit of fuel. -/
theorem utf8DecodeFuel_encode_cons (c : Nat) (hc : c < 0x110000) (bs : List Nat)
    (fuel : Nat) :
    utf8DecodeFuel (fuel + 1) (utf8EncodeCp c ++ bs)
      = (utf8DecodeFuel fuel bs).map (fun cs => c :: cs) := by
  by_cases h1 : c < 0x80
  · simp only [utf8EncodeCp]
    rw [if_pos h1]
    simp only [List.cons_append, List.nil_append]
    rw [utf8DecodeFuel_succ_cons, if_pos h1]
  · by_cases h2 : c < 0x800
    · simp only [utf8EncodeCp]
      rw [if_neg h1, if_pos h2]
      simp only [List.cons_append, List.nil_append]
      have e1 : ¬(0xC0 + c / 0x40 < 0x80) := by omega
      have e2 : ¬(0xC0 + c / 0x40 < 0xC0) := by omega
      have e3 : 0xC0 + c / 0x40 < 0xE0 := by omega
      have e4 : 0x80 ≤ 0x80 + c % 0x40 ∧ 0x80 + c % 0x40 < 0xC0 := ⟨by omega, by omega⟩
      rw [utf8DecodeFuel_succ_cons, if_neg e1, if_neg e2, if_pos e3]
      simp only []
      rw [if_pos e4]
      have hcp : (0xC0 + c / 0x40 - 0xC0) * 0x40 + (0x80 + c % 0x40 - 0x80) = c := by
        omega
      rw [hcp]
    · by_cases h3 : c < 0x10000
      · simp only [utf8EncodeCp]
        rw [if_neg h1, if_neg h2, if_pos h3]
        simp only [List.cons_append, List.nil_append]
        have e1 : ¬(0xE0 + c / 0x1000 < 0x80) := by omega
        have e2 : ¬(0xE0 + c / 0x1000 < 0xC0) := by omega
        have e3 : ¬(0xE0 + c / 0x1000 < 0xE0) := by omega
        have e4 : 0xE0 + c / 0x1000 < 0xF0 := by omega
        have e5 : (0x80 ≤ 0x80 + c / 0x40 % 0x40 ∧ 0x80 + c / 0x40 % 0x40 < 0xC0) ∧
            0x80 ≤ 0x80 + c % 0x40 ∧ 0x80 + c % 0x40 < 0xC0 :=
          ⟨⟨by omega, by omega⟩, by omega, by omega⟩
        rw [utf8DecodeFuel_succ_cons, if_neg e1, if_neg e2, if_neg e3, if_pos e4]
        simp only []
        rw [if_pos e5]
        have hcp : (0xE0 + c / 0x1000 - 0xE0) * 0x1000
            + (0x80 + c / 0x40 % 0x40 - 0x80) * 0x40 + (0x80 + c % 0x40 - 0x80) = c := by
          omega
        rw [hcp]
      · simp only [utf8EncodeCp]
        rw [if_neg h1, if_neg h2, if_neg h3]
        simp only [List.cons_append, List.nil_append]
        have e1 : ¬(0xF0 + c / 0x40000 < 0x80) := by omega
        have e2 : ¬(0xF0 + c / 0x40000 < 0xC0) := by omega
        have e3 : ¬(0xF0 + c / 0x40000 < 0xE0) := by omega
        have e4 : ¬(0xF0 + c / 0x40000 < 0xF0) := by omega
        have e5 : 0xF0 + c / 0x40000 < 0xF8 := by omega
        have e6 : (0x80 ≤ 0x80 + c / 0x1000 % 0x40 ∧ 0x80 + c / 0x1000 % 0x40 < 0xC0) ∧
            (0x80 ≤ 0x80 + c / 0x40 % 0x40 ∧ 0x80 + c / 0x40 % 0x40 < 0xC0) ∧
            0x80 ≤ 0x80 + c % 0x40 ∧ 0x80 + c % 0x40 < 0xC0 :=
          ⟨⟨by omega, by omega⟩, ⟨by omega, by omega⟩, by omega, by omega⟩
        rw [utf8DecodeFuel_succ_cons, if_neg e1, if_neg e2, if_neg e3, if_neg e4,
          if_pos e5]
        simp only []
        rw [if_pos e6]
        have hcp : (0xF0 + c / 0x40000 - 0xF0) * 0x40000
            + (0x80 + c / 0x1000 % 0x40 - 0x80) * 0x1000
            + (0x80 + c / 0x40 % 0x40 - 0x80) * 0x40 + (0x80 + c % 0x40 - 0x80) = c := by
          omega
        rw [hcp]

/-- With fuel at least the number of characters, decoding the encoding of
a text recovers its code points. -/
theorem utf8DecodeFuel_strEncode (t : List Char) :
    ∀ fuel, t.length ≤ fuel →
      utf8DecodeFuel fuel (strEncode t) = some (t.map Char.toNat) := by
  induction t with
  | nil => intro fuel _; exact utf8DecodeFuel_nil fuel
  | cons c cs ih =>
    intro fuel hf
    cases fuel with
    | zero => simp at hf
    | succ f =>
      simp only [strEncode, List.map_cons]
      rw [utf8DecodeFuel_encode_cons c.toNat (char_toNat_lt c) (strEncode cs) f,
        ih f (by simpa using hf)]
      rfl

/-- Every character encodes to at least one byte. -/
theorem utf8EncodeCp_length_pos (c : Nat) : 1 ≤ (utf8EncodeCp c).length := by
  unfold utf8EncodeCp
  split
  · simp
  · split
    · simp
    · split
      · simp
      · simp

/-- A text never has more characters than encoded bytes. -/
theorem length_le_strEncode_length (t : List Char) :
    t.length ≤ (strEncode t).length := by
  induction t with
  | nil => simp [strEncode]
  | cons c cs ih =>
    simp only [strEncode, List.length_cons, List.length_append]
    have := utf8EncodeCp_length_pos c.toNat
    omega

/-- Decoding the encoding of a text recovers its code points. -/
theorem utf8DecodeCps_strEncode (t : List Char) :
    utf8DecodeCps (strEncode t) = some (t.map Char.toNat) := by
  unfold utf8DecodeCps
  exact utf8DecodeFuel_strEncode t (strEncode t).length (length_le_strEncode_length t)

/-- Mapping there and back with a pointwise inverse is the identity. -/
theorem map_map_eq_self {α β : Type} (l : List α) (f : α → β) (g : β → α)
    (hfg : ∀ a ∈ l, g (f a) = a) : (l.map f).map g = l := by
  induction l with
  | nil => rfl
  | cons a t ih =>
    simp only [List.map_cons, hfg a (by simp), List.cons.injEq, true_and]
    exact ih (fun b hb => hfg b (by simp [hb]))

/-- C9: for every text and every single-byte key (k ≤ 255), decrypting
the encryption with the same key returns the original text:
`decrypt(encrypt(t, k), k) = t`. -/
theorem cipher_round_trip (t : List Char) (k : Nat) (hk : k ≤ 255) :
    decrypt (encrypt t k) k = some t := by
  unfold decrypt encrypt strDecode
  have hmap : ((strEncode t).map (fun b => (b ^^^ k) % 256)).map (fun b => b ^^^ k)
      = strEncode t := by
    apply map_map_eq_self
    intro b hb
    have hblt := strEncode_lt_256 t b hb
    have hx : b ^^^ k < 256 := Nat.xor_lt_two_pow (n := 8) (by omega) (by omega)
    rw [Nat.mod_eq_of_lt hx, Nat.xor_cancel_right]
  rw [hmap, utf8DecodeCps_strEncode]
  have hchars : (t.map Char.toNat).map Char.ofNat = t :=
    map_map_eq_self t Char.toNat Char.ofNat (fun c _ => Char.ofNat_toNat c)
  simp [hchars]

/-- Witness for C9 at a concrete text and the source's default key
0x55. -/
theorem cipher_round_trip_witness :
    decrypt (encrypt ['h', 'i', '!'] 0x55) 0x55 = some ['h', 'i', '!'] :=
  cipher_round_trip ['h', 'i', '!'] 0x55 (by decide)

